import Mathlib

/-!
Verification of the bookkeeper entry-store / session-view engine.

This file is a shallow embedding of the parts of the program that the
claims speak about.  Modelling conventions, used consistently below:

* Rust `String` / `&str` values are modelled as `Str := List Char`
  (a Rust string is a sequence of characters; all operations used by the
  program — `split`, `join`, `starts_with`, `trim`, `to_lowercase`,
  `contains`, `split_whitespace` — are defined below on `List Char`,
  each one a direct translation of the corresponding Rust semantics).
* A store file on disk is modelled by the parsed pair
  `Store = { preamble, entries }`; each `*_sync` file operation
  (read file, mutate, rewrite) becomes a pure state-passing function
  `Store → ... → Store × outcome`.
* `HashSet` values used only through `contains`/`insert` (the peeked
  set, a session's `seen_random` set) are modelled as lists with `∈`
  membership; `insert` is modelled by `cons`, which has the same
  membership semantics.
* `Iterator::position` is modelled by `position` below; `Vec::remove`
  by `List.eraseIdx`; `vec[i] = x` by `List.set`; `Vec::insert(0, x)`
  by `cons`.
* Wall-clock time is passed explicitly: every function that calls
  `now_ts()` in the source takes `now : Nat` as an argument.
-/

/-- A Rust string, modelled as its sequence of characters. -/
abbrev Str := List Char

/-- Translation of `normalize_line_endings` (helpers.rs): the composition of
`replace("\r\n", "\n")` followed by `replace('\r', '\n')`; every `"\r\n"`
pair and every remaining `'\r'` becomes `'\n'`. -/
def normalize_line_endings : Str → Str
  | [] => []
  | '\r' :: '\n' :: rest => '\n' :: normalize_line_endings rest
  | '\r' :: rest => '\n' :: normalize_line_endings rest
  | c :: rest => c :: normalize_line_endings rest

/-- Translation of Rust `Iterator::position`: index of the first element
satisfying the predicate. -/
def position (p : α → Bool) : List α → Option Nat
  | [] => none
  | a :: l => if p a then some 0 else (position p l).map (· + 1)

/-- An `EntryBlock` (main.rs): a multi-line text record. -/
structure EntryBlock where
  lines : List Str
deriving DecidableEq, Repr

/-- Translation of `EntryBlock::block_string`: `lines.join("\n")`. -/
def EntryBlock.block_string (e : EntryBlock) : Str :=
  List.intercalate ['\n'] e.lines

/-- Translation of `EntryBlock::from_block`: normalize line endings and split
on `'\n'` (Rust `split('\n')` yields `[""]` on the empty string, exactly as
`List.splitOn` yields `[[]]`). -/
def EntryBlock.from_block (block : Str) : EntryBlock :=
  ⟨(normalize_line_endings block).splitOn '\n'⟩

/-- Translation of `EntryBlock::display_lines`: strip the `"- "` list marker
(or a bare `'-'` followed by leading whitespace) from the first line. -/
def EntryBlock.display_lines (e : EntryBlock) : List Str :=
  match e.lines with
  | [] => []
  | first :: rest =>
    (if ['-', ' '].isPrefixOf first then first.drop 2
     else if first.head? = some '-' then (first.drop 1).dropWhile Char.isWhitespace
     else first) :: rest

/-- A store file, as parsed: preamble lines and the ordered entry list.
The `*_sync` operations below are the read-modify-write file operations of
helpers.rs, with the file contents passed in and out explicitly. -/
structure Store where
  preamble : List Str
  entries : List EntryBlock
deriving DecidableEq, Repr

/-- Outcome of an add operation (main.rs `AddOutcome`). -/
inductive AddOutcome
  | Added
  | Duplicate
deriving DecidableEq, Repr

/-- Outcome of a modify operation (main.rs `ModifyOutcome`). -/
inductive ModifyOutcome
  | Applied
  | NotFound
deriving DecidableEq, Repr

/-- Translation of `add_entry_sync` (helpers.rs): reject as `Duplicate` if an
identical block string exists, otherwise insert at index 0. -/
def add_entry_sync (store : Store) (entry : EntryBlock) : Store × AddOutcome :=
  if store.entries.any (fun e => e.block_string == entry.block_string) then
    (store, .Duplicate)
  else
    ({ store with entries := entry :: store.entries }, .Added)

/-- Translation of `delete_entry_sync` (helpers.rs): locate by block string,
`NotFound` if absent, otherwise remove. -/
def delete_entry_sync (store : Store) (entry_block : Str) : Store × ModifyOutcome :=
  match position (fun e => e.block_string == entry_block) store.entries with
  | none => (store, .NotFound)
  | some pos => ({ store with entries := store.entries.eraseIdx pos }, .Applied)

/-- Translation of `update_entry_sync` (helpers.rs): locate by block string and
replace the block at the matched position with the new content (note: no
duplicate check against the other entries). -/
def update_entry_sync (store : Store) (entry_block : Str) (updated_entry : EntryBlock) :
    Store × ModifyOutcome :=
  match position (fun e => e.block_string == entry_block) store.entries with
  | none => (store, .NotFound)
  | some pos => ({ store with entries := store.entries.set pos updated_entry }, .Applied)

/-- Translation of `move_to_finished_sync` (helpers.rs): remove the matched
entry from the read-later store and insert it at the head of the finished
store (no duplicate check in the destination).  The inner `match` on the
indexed element is the counterpart of `entries_rl.remove(pos)` returning the
removed entry; `position` only ever returns in-range indices, so its `none`
branch is unreachable. -/
def move_to_finished_sync (read_later finished : Store) (entry_block : Str) :
    Store × Store × ModifyOutcome :=
  match position (fun e => e.block_string == entry_block) read_later.entries with
  | none => (read_later, finished, .NotFound)
  | some pos =>
    match read_later.entries[pos]? with
    | none => (read_later, finished, .NotFound)
    | some entry =>
      ({ read_later with entries := read_later.entries.eraseIdx pos },
       { finished with entries := entry :: finished.entries },
       .Applied)

/-- Translation of `move_to_finished_updated_sync` (helpers.rs): remove the
matched entry from read-later and insert `from_block(updated_entry)` at the
head of finished. -/
def move_to_finished_updated_sync (read_later finished : Store)
    (entry_block updated_entry : Str) : Store × Store × ModifyOutcome :=
  match position (fun e => e.block_string == entry_block) read_later.entries with
  | none => (read_later, finished, .NotFound)
  | some pos =>
    ({ read_later with entries := read_later.entries.eraseIdx pos },
     { finished with entries := EntryBlock.from_block updated_entry :: finished.entries },
     .Applied)

/-- Translation of `move_to_read_later_sync` (helpers.rs): remove the matched
entry from finished and insert it at the head of read-later. -/
def move_to_read_later_sync (read_later finished : Store) (entry_block : Str) :
    Store × Store × ModifyOutcome :=
  match position (fun e => e.block_string == entry_block) finished.entries with
  | none => (read_later, finished, .NotFound)
  | some pos =>
    match finished.entries[pos]? with
    | none => (read_later, finished, .NotFound)
    | some entry =>
      ({ read_later with entries := entry :: read_later.entries },
       { finished with entries := finished.entries.eraseIdx pos },
       .Applied)

/-- The store invariant of the spec: no two blocks in a store share the same
block string. -/
def distinctBlocks (s : Store) : Prop :=
  (s.entries.map EntryBlock.block_string).Nodup

instance (s : Store) : Decidable (distinctBlocks s) := by
  unfold distinctBlocks; infer_instance



/-- Translation of Rust `str::lines` as used by `parse_entries`: split on
`'\n'`, with an optional final line ending, and any `'\r'` immediately
preceding a `'\n'` stripped; the empty string has no lines. -/
def rust_lines (s : Str) : List Str :=
  if s = [] then []
  else
    let t := if s.getLast? = some '\n' then s.dropLast else s
    (t.splitOn '\n').map (fun line =>
      if line.getLast? = some '\r' then line.dropLast else line)

/-- The accumulator of the `parse_entries` loop (helpers.rs): preamble so
far, finished entries, the block being built, and whether a marker line has
been seen yet. -/
structure ParseState where
  pre : List Str
  entries : List EntryBlock
  current : List Str
  in_entries : Bool
deriving DecidableEq, Repr

/-- One iteration of the `parse_entries` loop: a line starting with `'-'`
flushes the block under construction (if any) and starts a new one; other
lines continue the current block, or extend the preamble if no marker line
has been seen yet. -/
def parse_step (st : ParseState) (line : Str) : ParseState :=
  if line.head? = some '-' then
    let st' :=
      if st.in_entries && !st.current.isEmpty then
        { st with entries := st.entries ++ [⟨st.current⟩], current := [] }
      else st
    { st' with in_entries := true, current := st'.current ++ [line] }
  else if st.in_entries then
    { st with current := st.current ++ [line] }
  else
    { st with pre := st.pre ++ [line] }

/-- The flush after the `parse_entries` loop: push the block still under
construction, if any. -/
def parse_finalize (st : ParseState) : List Str × List EntryBlock :=
  if st.in_entries && !st.current.isEmpty then
    (st.pre, st.entries ++ [⟨st.current⟩])
  else
    (st.pre, st.entries)

/-- The `parse_entries` loop (helpers.rs) on an explicit list of lines: fold
the per-line step, then flush the last block under construction. -/
def parse_lines (ls : List Str) : List Str × List EntryBlock :=
  parse_finalize (ls.foldl parse_step ⟨[], [], [], false⟩)

/-- Translation of `parse_entries` (helpers.rs): run the loop over
`contents.lines()`. -/
def parse_entries (contents : Str) : List Str × List EntryBlock :=
  parse_lines (rust_lines contents)

/-- Translation of `read_entries` (helpers.rs) on given file contents:
normalize line endings, then parse. -/
def read_entries (contents : Str) : List Str × List EntryBlock :=
  parse_entries (normalize_line_endings contents)

/-- Translation of `write_entries` (helpers.rs): concatenate the preamble
lines and every entry's lines, join with `'\n'`, and append a final newline
when the content is nonempty.  The result is the file contents written. -/
def write_entries (preamble : List Str) (entries : List EntryBlock) : Str :=
  let lines := preamble ++ entries.flatMap EntryBlock.lines
  let content := List.intercalate ['\n'] lines
  if content = [] then content else content ++ ['\n']

/-- Well-formedness of an entry block with respect to the file format:
nonempty, the first line carries the `'-'` marker, continuation lines do
not, and no line contains a newline or carriage return. -/
def wfEntry (e : EntryBlock) : Prop :=
  e.lines ≠ [] ∧ e.lines.headI.head? = some '-' ∧
    (∀ l ∈ e.lines.tail, l.head? ≠ some '-') ∧
    ∀ l ∈ e.lines, '\n' ∉ l ∧ '\r' ∉ l

instance : DecidablePred wfEntry := fun e => by
  unfold wfEntry; infer_instance

/-- Well-formedness of a preamble line: no `'-'` marker and no embedded line
ending. -/
def wfPreLine (l : Str) : Prop :=
  l.head? ≠ some '-' ∧ '\n' ∉ l ∧ '\r' ∉ l

instance : DecidablePred wfPreLine := fun l => by
  unfold wfPreLine; infer_instance




/-- Session list modes (main.rs `ListMode`). -/
inductive ListMode
  | Top
  | Bottom
deriving DecidableEq, Repr

/-- Session kinds (main.rs `SessionKind`). -/
inductive SessionKind
  | List
  | Search (query : Str)
deriving DecidableEq, Repr

/-- Session view states (main.rs `ListView`); `Selected`, `FinishConfirm`
and `DeleteConfirm` carry the boxed view to return to. -/
inductive ListView
  | Menu
  | Peek (mode : ListMode) (page : Nat)
  | Selected (return_to : ListView) (index : Nat)
  | FinishConfirm (selected : ListView) (index : Nat)
  | DeleteConfirm (selected : ListView) (index : Nat) (step : Nat) (expires_at : Nat)
deriving DecidableEq, Repr

/-- An in-memory list session (main.rs `ListSession`); the chat/message
bookkeeping fields, irrelevant to the claims, are omitted.  `seen_random`
models the `HashSet<usize>` through its membership. -/
structure ListSession where
  kind : SessionKind
  entries : List EntryBlock
  view : ListView
  seen_random : List Nat
deriving DecidableEq, Repr

/-- The fixed page size (main.rs `PAGE_SIZE`). -/
def PAGE_SIZE : Nat := 3

/-- Translation of `ordered_unpeeked_indices` (helpers.rs): indices of the
entries whose block string is not peeked, reversed for `Bottom`. -/
def ordered_unpeeked_indices (entries : List EntryBlock) (peeked : List Str)
    (mode : ListMode) : List Nat :=
  let indices :=
    ((entries.enum.filter (fun p => !peeked.contains p.2.block_string)).map Prod.fst)
  if mode = ListMode.Bottom then indices.reverse else indices

/-- Translation of `ordered_indices` (helpers.rs): all indices, reversed for
`Bottom`. -/
def ordered_indices (entries : List EntryBlock) (mode : ListMode) : List Nat :=
  let indices := List.range entries.length
  if mode = ListMode.Bottom then indices.reverse else indices

/-- Translation of `peek_indices` (helpers.rs): the page-`page` slice
`[page*PAGE_SIZE, page*PAGE_SIZE+PAGE_SIZE)` of the unpeeked candidate
indices; empty when the start is out of range. -/
def peek_indices (entries : List EntryBlock) (peeked : List Str) (mode : ListMode)
    (page : Nat) : List Nat :=
  let ordered := ordered_unpeeked_indices entries peeked mode
  if ordered.isEmpty then []
  else
    let start := page * PAGE_SIZE
    if ordered.length ≤ start then []
    else ((ordered.drop start).take (min (start + PAGE_SIZE) ordered.length - start))

/-- Translation of `peek_indices_all` (helpers.rs): like `peek_indices` but
over all indices, ignoring the peeked set. -/
def peek_indices_all (entries : List EntryBlock) (mode : ListMode) (page : Nat) :
    List Nat :=
  let ordered := ordered_indices entries mode
  if ordered.isEmpty then []
  else
    let start := page * PAGE_SIZE
    if ordered.length ≤ start then []
    else ((ordered.drop start).take (min (start + PAGE_SIZE) ordered.length - start))

/-- Translation of `peek_indices_for_session` (helpers.rs): Search-kind
sessions page over all indices; List-kind sessions page over the unpeeked
ones. -/
def peek_indices_for_session (session : ListSession) (peeked : List Str)
    (mode : ListMode) (page : Nat) : List Nat :=
  match session.kind with
  | .Search _ => peek_indices_all session.entries mode page
  | .List => peek_indices session.entries peeked mode page

/-- Translation of `normalize_peek_view` (helpers.rs): after a removal, an
empty `Peek` page with `page > 0` is decremented. -/
def normalize_peek_view (session : ListSession) (peeked : List Str) : ListSession :=
  match session.view with
  | .Peek mode page =>
    if (peek_indices_for_session session peeked mode page).isEmpty && decide (page > 0) then
      { session with view := .Peek mode (page - 1) }
    else session
  | _ => session

/-- Notice text used by the expired-confirmation branches. -/
def expiredNotice : Str := "Delete confirmation expired.".data

/-- Translation of the `del1` branch of `handle_list_callback`
(callback_handlers.rs): in a `DeleteConfirm` view, an expired confirmation
(`now > expires_at`) aborts back to the captured `selected` view with a
notice; otherwise the view advances to `step = 2`, keeping the same
`expires_at`.  Returns the updated session and the notice, if any. -/
def handle_del1 (now : Nat) (session : ListSession) : ListSession × Option Str :=
  match session.view with
  | .DeleteConfirm selected index _step expires_at =>
    if now > expires_at then
      ({ session with view := selected }, some expiredNotice)
    else
      ({ session with view := .DeleteConfirm selected index 2 expires_at }, none)
  | _ => (session, none)

/-- Result of the `del2` branch: the updated session and read-later store,
the undo records appended, and the notice, if any. -/
structure Del2Result where
  session : ListSession
  read_later : Store
  undo_added : List Str
  notice : Option Str
deriving DecidableEq, Repr

/-- Translation of the `del2` branch of `handle_list_callback`
(callback_handlers.rs): expired confirmations abort to `selected` with a
notice; otherwise the targeted entry is deleted from the read-later store
(the `apply_user_op` of a `Delete` op, whose I/O is deterministic here), the
session snapshot drops the entry, the view returns to what `selected`
captured, the peek page is re-normalized, and an undo record is appended. -/
def handle_del2 (now : Nat) (peeked : List Str) (session : ListSession)
    (read_later : Store) : Del2Result :=
  match session.view with
  | .DeleteConfirm selected index _step expires_at =>
    if now > expires_at then
      ⟨{ session with view := selected }, read_later, [], some expiredNotice⟩
    else
      match session.entries[index]? with
      | none => ⟨session, read_later, [], none⟩
      | some entry =>
        match delete_entry_sync read_later entry.block_string with
        | (store', .Applied) =>
          let entries' := session.entries.eraseIdx index
          let view' :=
            match selected with
            | .Selected return_to _ => return_to
            | _ => .Menu
          let session' :=
            normalize_peek_view { session with entries := entries', view := view' } peeked
          ⟨session', store', [entry.block_string], none⟩
        | (_, .NotFound) =>
          ⟨{ session with view := selected }, read_later, [], some "Item not found.".data⟩
  | _ => ⟨session, read_later, [], none⟩

/-- Translation of the eligible-index computation in the `random` branch of
`handle_list_callback` (callback_handlers.rs): indices neither seen this
session nor globally peeked. -/
def remaining_random_indices (session : ListSession) (peeked : List Str) : List Nat :=
  ((List.range session.entries.length).filter
      (fun i => !session.seen_random.contains i)).filter
    (fun i => ((session.entries[i]?).map
        (fun entry => !peeked.contains entry.block_string)).getD false)

/-- Translation of the `random` branch of `handle_list_callback`
(callback_handlers.rs).  The shuffle is the only source of randomness; it is
exposed as the `shuffled` argument, intended to be a permutation of the
remaining eligible indices, from which the code takes the first element.
Returns the updated session, the updated peeked set, and the notice, if
any. -/
def handle_random (session : ListSession) (peeked : List Str) (shuffled : List Nat) :
    ListSession × List Str × Option Str :=
  match session.kind with
  | .Search _ => (session, peeked, none)
  | .List =>
    if session.entries.isEmpty then (session, peeked, none)
    else
      let remaining := remaining_random_indices session peeked
      if remaining.isEmpty then
        ({ session with view := .Menu }, peeked, some "Everything's been peeked already.".data)
      else
        match shuffled.head? with
        | none => (session, peeked, none)
        | some index =>
          let session' :=
            { session with
              seen_random := index :: session.seen_random,
              view := .Selected session.view index }
          let peeked' :=
            match session.entries[index]? with
            | some entry => entry.block_string :: peeked
            | none => peeked
          (session', peeked', none)

/-- Undo record kinds (main.rs `UndoKind`). -/
inductive UndoKind
  | MoveToFinished
  | Delete
deriving DecidableEq, Repr

/-- An undo ledger record (main.rs `UndoRecord`). -/
structure UndoRecord where
  id : Str
  kind : UndoKind
  entry : Str
  expires_at : Nat
deriving DecidableEq, Repr

/-- Queued mutation kinds (main.rs `QueuedOpKind`). -/
inductive QueuedOpKind
  | Add
  | AddResource
  | Delete
  | MoveToFinished
  | MoveToFinishedUpdated
  | MoveToReadLater
  | UpdateEntry
deriving DecidableEq, Repr

/-- A queued mutation (main.rs `QueuedOp`). -/
structure QueuedOp where
  kind : QueuedOpKind
  entry : Str
  resource_path : Option Str
  updated_entry : Option Str
deriving DecidableEq, Repr

/-- Translation of `prune_undo` (helpers.rs): retain records with
`expires_at > now`. -/
def prune_undo (now : Nat) (undo : List UndoRecord) : List UndoRecord :=
  undo.filter (fun r => now < r.expires_at)

/-- The reversal op built by `handle_undo_callback` (callback_handlers.rs):
a `MoveToFinished` record reverses to a `MoveToReadLater` op, a `Delete`
record reverses to an `Add` op. -/
def undo_op (record : UndoRecord) : QueuedOp :=
  match record.kind with
  | .MoveToFinished => ⟨.MoveToReadLater, record.entry, none, none⟩
  | .Delete => ⟨.Add, record.entry, none, none⟩

/-- The state handled by the undo callback: the ledger and the two stores. -/
structure UndoEnv where
  ledger : List UndoRecord
  read_later : Store
  finished : Store
deriving DecidableEq, Repr

/-- Translation of `handle_undo_callback` (callback_handlers.rs) for the
`undo` action: prune the ledger, remove the first record with the given id
(reporting "Undo not found." when there is none, or "Undo expired." when the
removed record is itself expired), then apply the reversal op — `Add` of the
recorded entry for a `Delete` record (via `from_block`, as `apply_op` does),
`MoveToReadLater` for a `MoveToFinished` record — and report "Undone.".
Store I/O is deterministic here, so the queued branch does not arise. -/
def handle_undo (now : Nat) (env : UndoEnv) (undo_id : Str) : UndoEnv × Str :=
  let pruned := prune_undo now env.ledger
  match position (fun r => r.id == undo_id) pruned with
  | none => ({ env with ledger := pruned }, "Undo not found.".data)
  | some pos =>
    match pruned[pos]? with
    | none => ({ env with ledger := pruned }, "Undo not found.".data)
    | some record =>
      let ledger' := pruned.eraseIdx pos
      if record.expires_at < now then
        ({ env with ledger := ledger' }, "Undo expired.".data)
      else
        match record.kind with
        | .Delete =>
          let res := add_entry_sync env.read_later (EntryBlock.from_block record.entry)
          (⟨ledger', res.1, env.finished⟩, "Undone.".data)
        | .MoveToFinished =>
          let res := move_to_read_later_sync env.read_later env.finished record.entry
          (⟨ledger', res.1, res.2.1⟩, "Undone.".data)

/-- Outcome of applying a mutation (main.rs `ApplyOutcome`). -/
inductive ApplyOutcome
  | Applied
  | Duplicate
  | NotFound
deriving DecidableEq, Repr

/-- Outcome surfaced to the user (main.rs `UserOpOutcome`). -/
inductive UserOpOutcome
  | Applied (outcome : ApplyOutcome)
  | Queued
deriving DecidableEq, Repr

/-- Translation of `with_retries` (helpers.rs): up to 3 attempts of the
fallible closure, returning the first success or the last error.  The n-th
attempt of the closure is modelled as `f n`; the 200ms sleep between failed
attempts is wall-clock behavior with no effect on the result. -/
def with_retries (f : Nat → Except Str α) : Except Str α :=
  match f 0 with
  | .ok value => .ok value
  | .error _ =>
    match f 1 with
    | .ok value => .ok value
    | .error _ =>
      match f 2 with
      | .ok value => .ok value
      | .error err => .error err

/-- Translation of `apply_user_op` (main.rs) composed with the retrying
`apply_op`: the store mutation attempts are `f`; on success the outcome is
surfaced, on exhausted retries the op is appended to the persisted queue and
`Queued` is returned. -/
def apply_user_op (f : Nat → Except Str ApplyOutcome) (queue : List QueuedOp)
    (op : QueuedOp) : UserOpOutcome × List QueuedOp :=
  match with_retries f with
  | .ok outcome => (.Applied outcome, queue)
  | .error _ => (.Queued, queue ++ [op])

/-- Translation of Rust `str::trim`: drop whitespace from both ends. -/
def rust_trim (s : Str) : Str :=
  ((s.dropWhile Char.isWhitespace).reverse.dropWhile Char.isWhitespace).reverse

/-- Translation of Rust `str::to_lowercase` at the per-character level
(`Char.toLower` covers the basic-latin letters the program works with). -/
def rust_to_lowercase (s : Str) : Str :=
  s.map Char.toLower

/-- Helper for `split_whitespace`: `acc` is the reversed run of
non-whitespace characters currently being collected. -/
def split_whitespace_aux : List Char → Str → List Str
  | acc, [] => if acc.isEmpty then [] else [acc.reverse]
  | acc, c :: cs =>
    if c.isWhitespace then
      if acc.isEmpty then split_whitespace_aux [] cs
      else acc.reverse :: split_whitespace_aux [] cs
    else split_whitespace_aux (c :: acc) cs

/-- Translation of Rust `str::split_whitespace`: maximal runs of
non-whitespace characters. -/
def split_whitespace (s : Str) : List Str :=
  split_whitespace_aux [] s

/-- Translation of Rust `str::contains(&str)`: some position at which the
needle is a prefix of the remaining haystack. -/
def rust_contains (haystack needle : Str) : Bool :=
  (List.range (haystack.length + 1)).any (fun i => needle.isPrefixOf (haystack.drop i))

/-- Translation of `matches_query` (helpers.rs): lowercase the trimmed query;
an empty needle matches nothing; otherwise every whitespace-separated term
must occur in the lowercased joined display lines. -/
def matches_query (entry : EntryBlock) (query : Str) : Bool :=
  let needle := rust_to_lowercase (rust_trim query)
  if needle.isEmpty then false
  else
    let haystack := rust_to_lowercase (List.intercalate ['\n'] entry.display_lines)
    (split_whitespace needle).all (fun term => rust_contains haystack term)




/-- The `AddOutcome → ApplyOutcome` mapping of `apply_op` (main.rs):
`Added ↦ Applied`, `Duplicate ↦ Duplicate`. -/
def apply_outcome_of_add : AddOutcome → ApplyOutcome
  | .Added => .Applied
  | .Duplicate => .Duplicate

/-- The candidate index list exactly as the claim words it: for List-kind
sessions the indices of entries whose block string is not in the peeked set,
for Search-kind sessions all indices; forward for `Top`, reversed for
`Bottom`. -/
def claimed_candidates (session : ListSession) (peeked : List Str)
    (mode : ListMode) : List Nat :=
  let forward :=
    match session.kind with
    | .List =>
      (List.range session.entries.length).filter
        (fun i => ((session.entries[i]?).map
            (fun e => !peeked.contains e.block_string)).getD false)
    | .Search _ => List.range session.entries.length
  if mode = ListMode.Bottom then forward.reverse else forward

/-! ### Concrete evaluation checks of the embedding -/

example :
    add_entry_sync ⟨[], [⟨["- a".data]⟩]⟩ ⟨["- b".data]⟩
      = (⟨[], [⟨["- b".data]⟩, ⟨["- a".data]⟩]⟩, .Added) := by decide
example :
    (update_entry_sync ⟨[], [⟨["- a".data]⟩, ⟨["- b".data]⟩]⟩ "- a".data ⟨["- b".data]⟩).1
      = ⟨[], [⟨["- b".data]⟩, ⟨["- b".data]⟩]⟩ := by decide
example :
    parse_entries "pre\n\n- a\nb\n- c\n".data
      = (["pre".data, [] ], [⟨["- a".data, "b".data]⟩, ⟨["- c".data]⟩]) := by decide
example :
    write_entries ["pre".data] [⟨["- a".data, "b".data]⟩] = "pre\n- a\nb\n".data := by decide
example : read_entries (write_entries [] [⟨["- a".data, "- b".data]⟩])
    = ([], [⟨["- a".data]⟩, ⟨["- b".data]⟩]) := by decide
example : matches_query ⟨["- Hello World".data, "second".data]⟩ "  ".data = false := by decide
example : matches_query ⟨["- Hello World".data, "second".data]⟩ "wor HEL".data = true := by
  decide
example : matches_query ⟨["- Hello World".data]⟩ "worlds".data = false := by decide

/-! ### Helper lemmas about `position` and list surgery -/

theorem position_spec {p : α → Bool} :
    ∀ {l : List α} {i : Nat}, position p l = some i →
      ∃ a, l[i]? = some a ∧ p a = true := by
  intro l
  induction l with
  | nil => intro i h; simp [position] at h
  | cons a t ih =>
    intro i h
    by_cases hp : p a
    · simp [position, hp] at h
      subst h
      exact ⟨a, by simp, hp⟩
    · simp [position, hp] at h
      obtain ⟨j, hj, rfl⟩ := h
      obtain ⟨b, hb, hpb⟩ := ih hj
      exact ⟨b, by simpa using hb, hpb⟩

theorem position_eq_none {p : α → Bool} {l : List α}
    (h : ∀ a ∈ l, p a = false) : position p l = none := by
  induction l with
  | nil => rfl
  | cons a t ih =>
    simp [position, h a (List.mem_cons_self a t)]
    exact ih fun b hb => h b (List.mem_cons_of_mem a hb)

theorem nodup_map_eraseIdx {f : α → β} {l : List α} (i : Nat)
    (h : (l.map f).Nodup) : ((l.eraseIdx i).map f).Nodup :=
  h.sublist (List.Sublist.map f (List.eraseIdx_sublist l i))

theorem set_getElem_self : ∀ (l : List α) (i : Nat) (x : α), l[i]? = some x →
    l.set i x = l := by
  intro l
  induction l with
  | nil => intro i x h; simp at h
  | cons a t ih =>
    intro i x h
    cases i with
    | zero => simp_all
    | succ j =>
      simp only [List.getElem?_cons_succ] at h
      simp [List.set_cons_succ, ih j x h]

theorem nodup_set {l : List α} {x : α} (hn : l.Nodup) (hx : x ∉ l) :
    ∀ i, (l.set i x).Nodup := by
  induction l with
  | nil => intro i; simp
  | cons a t ih =>
    intro i
    rw [List.nodup_cons] at hn
    cases i with
    | zero =>
      rw [List.set_cons_zero, List.nodup_cons]
      exact ⟨fun hxi => hx (List.mem_cons_of_mem a hxi), hn.2⟩
    | succ j =>
      rw [List.set_cons_succ, List.nodup_cons]
      refine ⟨fun hmem => ?_, ih hn.2 (fun hxi => hx (List.mem_cons_of_mem a hxi)) j⟩
      rcases List.mem_or_eq_of_mem_set hmem with hmem | rfl
      · exact hn.1 hmem
      · exact hx (List.mem_cons_self a t)

theorem map_set_blocks (l : List α) (i : Nat) (x : α) (f : α → β) :
    (l.set i x).map f = (l.map f).set i (f x) := by
  induction l generalizing i with
  | nil => simp
  | cons a t ih =>
    cases i with
    | zero => simp
    | succ j => simp [ih]

/-! ### C5: idempotent add -/

/-- C5 counterexample: for a store that already contains the entry, the first
`add` submission yields `Duplicate` (surfaced as `Duplicate`, not `Applied`),
refuting the claim's universal quantification over every store state. -/
theorem c5_counterexample :
    (add_entry_sync ⟨[], [⟨["- x".data]⟩]⟩ ⟨["- x".data]⟩).2 = AddOutcome.Duplicate ∧
      apply_outcome_of_add (add_entry_sync ⟨[], [⟨["- x".data]⟩]⟩ ⟨["- x".data]⟩).2
        ≠ ApplyOutcome.Applied := by decide

/-- C5 (amended): for every store whose entries do not already contain the
entry's block string, adding the entry twice yields `Added` (surfaced as
`Applied`) then `Duplicate`, the first add inserts the entry at index 0, the
second add leaves the store unchanged, and the store afterwards contains
exactly one copy of the entry. -/
theorem c5_amended (s : Store) (e : EntryBlock)
    (h : e.block_string ∉ s.entries.map EntryBlock.block_string) :
    (add_entry_sync s e).2 = AddOutcome.Added ∧
    apply_outcome_of_add (add_entry_sync s e).2 = ApplyOutcome.Applied ∧
    (add_entry_sync s e).1.entries = e :: s.entries ∧
    (add_entry_sync (add_entry_sync s e).1 e).2 = AddOutcome.Duplicate ∧
    apply_outcome_of_add (add_entry_sync (add_entry_sync s e).1 e).2
      = ApplyOutcome.Duplicate ∧
    (add_entry_sync (add_entry_sync s e).1 e).1 = (add_entry_sync s e).1 ∧
    ((add_entry_sync (add_entry_sync s e).1 e).1.entries.map
        EntryBlock.block_string).count e.block_string = 1 := by
  have hany : s.entries.any (fun x => x.block_string == e.block_string) = false := by
    rw [List.any_eq_false]
    intro a ha hab
    rw [beq_iff_eq] at hab
    exact h (hab ▸ List.mem_map_of_mem EntryBlock.block_string ha)
  have h1 : add_entry_sync s e = ({ s with entries := e :: s.entries }, .Added) := by
    simp [add_entry_sync, hany]
  have h2 : add_entry_sync { s with entries := e :: s.entries } e
      = ({ s with entries := e :: s.entries }, .Duplicate) := by
    simp [add_entry_sync]
  rw [h1, h2]
  refine ⟨rfl, rfl, rfl, rfl, rfl, rfl, ?_⟩
  show ((e :: s.entries).map EntryBlock.block_string).count e.block_string = 1
  rw [List.map_cons, List.count_cons_self, List.count_eq_zero.mpr h]

/-- C5 witness: the amended theorem at the empty store and entry `"- x"`. -/
theorem c5_witness :
    (add_entry_sync ⟨[], []⟩ ⟨["- x".data]⟩).2 = AddOutcome.Added ∧
    apply_outcome_of_add (add_entry_sync ⟨[], []⟩ ⟨["- x".data]⟩).2
      = ApplyOutcome.Applied ∧
    (add_entry_sync ⟨[], []⟩ ⟨["- x".data]⟩).1.entries = [⟨["- x".data]⟩] ∧
    (add_entry_sync (add_entry_sync ⟨[], []⟩ ⟨["- x".data]⟩).1 ⟨["- x".data]⟩).2
      = AddOutcome.Duplicate ∧
    apply_outcome_of_add
        (add_entry_sync (add_entry_sync ⟨[], []⟩ ⟨["- x".data]⟩).1 ⟨["- x".data]⟩).2
      = ApplyOutcome.Duplicate ∧
    (add_entry_sync (add_entry_sync ⟨[], []⟩ ⟨["- x".data]⟩).1 ⟨["- x".data]⟩).1
      = (add_entry_sync ⟨[], []⟩ ⟨["- x".data]⟩).1 ∧
    ((add_entry_sync (add_entry_sync ⟨[], []⟩ ⟨["- x".data]⟩).1
          ⟨["- x".data]⟩).1.entries.map EntryBlock.block_string).count
        "- x".data = 1 := by
  have h := c5_amended ⟨[], []⟩ ⟨["- x".data]⟩ (by decide)
  simpa using h

/-! ### C1: distinct block strings across store operations -/

/-- C1 counterexample: `update_entry_sync` replaces the matched block without
any duplicate check, so updating `"- a"` to `"- b"` in a store that already
holds `"- b"` produces two entries with the same block string, violating the
claimed invariant for the `update` operation. -/
theorem c1_counterexample :
    distinctBlocks ⟨[], [⟨["- a".data]⟩, ⟨["- b".data]⟩]⟩ ∧
      ¬ distinctBlocks
          (update_entry_sync ⟨[], [⟨["- a".data]⟩, ⟨["- b".data]⟩]⟩ "- a".data
              ⟨["- b".data]⟩).1 := by decide

/-- C1 (amended): `add` and `delete` always preserve pairwise-distinct block
strings; `update` preserves them provided the replacement block either equals
the targeted block string or does not occur in the store; the three move
operations always preserve them in the source store, and preserve them in the
destination store provided the inserted block string (the moved block, or the
`from_block` of the replacement text) does not already occur there. -/
theorem c1_amended (s read_later finished : Store) (e updated : EntryBlock)
    (entry_block updated_entry : Str) :
    (distinctBlocks s → distinctBlocks (add_entry_sync s e).1) ∧
    (distinctBlocks s → distinctBlocks (delete_entry_sync s entry_block).1) ∧
    (distinctBlocks s →
      (updated.block_string = entry_block ∨
        updated.block_string ∉ s.entries.map EntryBlock.block_string) →
      distinctBlocks (update_entry_sync s entry_block updated).1) ∧
    (distinctBlocks read_later →
      distinctBlocks (move_to_finished_sync read_later finished entry_block).1) ∧
    (distinctBlocks finished →
      entry_block ∉ finished.entries.map EntryBlock.block_string →
      distinctBlocks (move_to_finished_sync read_later finished entry_block).2.1) ∧
    (distinctBlocks read_later →
      distinctBlocks (move_to_finished_updated_sync read_later finished entry_block
          updated_entry).1) ∧
    (distinctBlocks finished →
      (EntryBlock.from_block updated_entry).block_string
          ∉ finished.entries.map EntryBlock.block_string →
      distinctBlocks (move_to_finished_updated_sync read_later finished entry_block
          updated_entry).2.1) ∧
    (distinctBlocks finished →
      distinctBlocks (move_to_read_later_sync read_later finished entry_block).2.1) ∧
    (distinctBlocks read_later →
      entry_block ∉ read_later.entries.map EntryBlock.block_string →
      distinctBlocks (move_to_read_later_sync read_later finished entry_block).1) := by
  refine ⟨?_, ?_, ?_, ?_, ?_, ?_, ?_, ?_, ?_⟩
  · -- add
    intro hs
    by_cases hany : s.entries.any (fun x => x.block_string == e.block_string) = true
    · simpa [add_entry_sync, hany] using hs
    · rw [Bool.not_eq_true] at hany
      have hgoal : (add_entry_sync s e).1 = { s with entries := e :: s.entries } := by
        simp [add_entry_sync, hany]
      rw [hgoal]
      show (EntryBlock.block_string e :: s.entries.map EntryBlock.block_string).Nodup
      rw [List.nodup_cons]
      refine ⟨?_, hs⟩
      rw [List.any_eq_false] at hany
      intro hmem
      obtain ⟨a, ha, hab⟩ := List.mem_map.mp hmem
      exact hany a ha (by rw [hab]; exact beq_self_eq_true _)
  · -- delete
    intro hs
    cases hpos : position (fun x => x.block_string == entry_block) s.entries with
    | none => simpa [delete_entry_sync, hpos] using hs
    | some pos =>
      have hgoal : (delete_entry_sync s entry_block).1
          = { s with entries := s.entries.eraseIdx pos } := by
        simp [delete_entry_sync, hpos]
      rw [hgoal]
      exact nodup_map_eraseIdx pos hs
  · -- update
    intro hs hcond
    cases hpos : position (fun x => x.block_string == entry_block) s.entries with
    | none => simpa [update_entry_sync, hpos] using hs
    | some pos =>
      have hgoal : (update_entry_sync s entry_block updated).1
          = { s with entries := s.entries.set pos updated } := by
        simp [update_entry_sync, hpos]
      rw [hgoal]
      show ((s.entries.set pos updated).map EntryBlock.block_string).Nodup
      rw [map_set_blocks]
      rcases hcond with hceq | hcnot
      · -- the replacement keeps the targeted block string: the list is unchanged
        obtain ⟨a, ha, hpa⟩ := position_spec hpos
        rw [beq_iff_eq] at hpa
        have hsame : (s.entries.map EntryBlock.block_string)[pos]?
            = some updated.block_string := by
          rw [List.getElem?_map, ha]
          simp [hpa, hceq]
        rw [set_getElem_self _ _ _ hsame]
        exact hs
      · exact nodup_set hs hcnot pos
  · -- move_to_finished, source store
    intro hs
    cases hpos : position (fun x => x.block_string == entry_block) read_later.entries with
    | none => simpa [move_to_finished_sync, hpos] using hs
    | some pos =>
      cases hget : read_later.entries[pos]? with
      | none => simpa [move_to_finished_sync, hpos, hget] using hs
      | some entry =>
        have hgoal : (move_to_finished_sync read_later finished entry_block).1
            = { read_later with entries := read_later.entries.eraseIdx pos } := by
          simp [move_to_finished_sync, hpos, hget]
        rw [hgoal]
        exact nodup_map_eraseIdx pos hs
  · -- move_to_finished, destination store
    intro hs hnot
    cases hpos : position (fun x => x.block_string == entry_block) read_later.entries with
    | none => simpa [move_to_finished_sync, hpos] using hs
    | some pos =>
      cases hget : read_later.entries[pos]? with
      | none => simpa [move_to_finished_sync, hpos, hget] using hs
      | some entry =>
        have hgoal : (move_to_finished_sync read_later finished entry_block).2.1
            = { finished with entries := entry :: finished.entries } := by
          simp [move_to_finished_sync, hpos, hget]
        rw [hgoal]
        obtain ⟨a, ha, hpa⟩ := position_spec hpos
        rw [ha] at hget
        obtain rfl : a = entry := by injection hget
        rw [beq_iff_eq] at hpa
        show (EntryBlock.block_string a :: finished.entries.map EntryBlock.block_string).Nodup
        rw [List.nodup_cons]
        exact ⟨hpa ▸ hnot, hs⟩
  · -- move_to_finished_updated, source store
    intro hs
    cases hpos : position (fun x => x.block_string == entry_block) read_later.entries with
    | none => simpa [move_to_finished_updated_sync, hpos] using hs
    | some pos =>
      have hgoal : (move_to_finished_updated_sync read_later finished entry_block
          updated_entry).1
          = { read_later with entries := read_later.entries.eraseIdx pos } := by
        simp [move_to_finished_updated_sync, hpos]
      rw [hgoal]
      exact nodup_map_eraseIdx pos hs
  · -- move_to_finished_updated, destination store
    intro hs hnot
    cases hpos : position (fun x => x.block_string == entry_block) read_later.entries with
    | none => simpa [move_to_finished_updated_sync, hpos] using hs
    | some pos =>
      have hgoal : (move_to_finished_updated_sync read_later finished entry_block
          updated_entry).2.1
          = { finished with
              entries := EntryBlock.from_block updated_entry :: finished.entries } := by
        simp [move_to_finished_updated_sync, hpos]
      rw [hgoal]
      show ((EntryBlock.from_block updated_entry).block_string
          :: finished.entries.map EntryBlock.block_string).Nodup
      rw [List.nodup_cons]
      exact ⟨hnot, hs⟩
  · -- move_to_read_later, source store
    intro hs
    cases hpos : position (fun x => x.block_string == entry_block) finished.entries with
    | none => simpa [move_to_read_later_sync, hpos] using hs
    | some pos =>
      cases hget : finished.entries[pos]? with
      | none => simpa [move_to_read_later_sync, hpos, hget] using hs
      | some entry =>
        have hgoal : (move_to_read_later_sync read_later finished entry_block).2.1
            = { finished with entries := finished.entries.eraseIdx pos } := by
          simp [move_to_read_later_sync, hpos, hget]
        rw [hgoal]
        exact nodup_map_eraseIdx pos hs
  · -- move_to_read_later, destination store
    intro hs hnot
    cases hpos : position (fun x => x.block_string == entry_block) finished.entries with
    | none => simpa [move_to_read_later_sync, hpos] using hs
    | some pos =>
      cases hget : finished.entries[pos]? with
      | none => simpa [move_to_read_later_sync, hpos, hget] using hs
      | some entry =>
        have hgoal : (move_to_read_later_sync read_later finished entry_block).1
            = { read_later with entries := entry :: read_later.entries } := by
          simp [move_to_read_later_sync, hpos, hget]
        rw [hgoal]
        obtain ⟨a, ha, hpa⟩ := position_spec hpos
        rw [ha] at hget
        obtain rfl : a = entry := by injection hget
        rw [beq_iff_eq] at hpa
        show (EntryBlock.block_string a :: read_later.entries.map EntryBlock.block_string).Nodup
        rw [List.nodup_cons]
        exact ⟨hpa ▸ hnot, hs⟩

/-- C1 witness: the amended theorem applied at concrete two-entry stores,
with every hypothesis discharged by evaluation. -/
theorem c1_witness :
    distinctBlocks (add_entry_sync ⟨[], [⟨["- a".data]⟩]⟩ ⟨["- b".data]⟩).1 ∧
    distinctBlocks (delete_entry_sync ⟨[], [⟨["- a".data]⟩]⟩ "- a".data).1 ∧
    distinctBlocks
      (update_entry_sync ⟨[], [⟨["- a".data]⟩]⟩ "- a".data ⟨["- c".data]⟩).1 ∧
    distinctBlocks
      (move_to_finished_sync ⟨[], [⟨["- a".data]⟩]⟩ ⟨[], [⟨["- b".data]⟩]⟩ "- a".data).1 ∧
    distinctBlocks
      (move_to_finished_sync ⟨[], [⟨["- a".data]⟩]⟩ ⟨[], [⟨["- b".data]⟩]⟩
          "- a".data).2.1 ∧
    distinctBlocks
      (move_to_finished_updated_sync ⟨[], [⟨["- a".data]⟩]⟩ ⟨[], [⟨["- b".data]⟩]⟩
          "- a".data "- c".data).1 ∧
    distinctBlocks
      (move_to_finished_updated_sync ⟨[], [⟨["- a".data]⟩]⟩ ⟨[], [⟨["- b".data]⟩]⟩
          "- a".data "- c".data).2.1 ∧
    distinctBlocks
      (move_to_read_later_sync ⟨[], [⟨["- a".data]⟩]⟩ ⟨[], [⟨["- b".data]⟩]⟩
          "- b".data).2.1 ∧
    distinctBlocks
      (move_to_read_later_sync ⟨[], [⟨["- a".data]⟩]⟩ ⟨[], [⟨["- b".data]⟩]⟩
          "- b".data).1 := by
  have h := c1_amended ⟨[], [⟨["- a".data]⟩]⟩ ⟨[], [⟨["- a".data]⟩]⟩
    ⟨[], [⟨["- b".data]⟩]⟩ ⟨["- b".data]⟩ ⟨["- c".data]⟩ "- a".data "- c".data
  have h' := c1_amended ⟨[], [⟨["- a".data]⟩]⟩ ⟨[], [⟨["- a".data]⟩]⟩
    ⟨[], [⟨["- b".data]⟩]⟩ ⟨["- b".data]⟩ ⟨["- c".data]⟩ "- b".data "- c".data
  exact ⟨h.1 (by decide), h.2.1 (by decide), h.2.2.1 (by decide) (by decide),
    h.2.2.2.1 (by decide), h.2.2.2.2.1 (by decide) (by decide),
    h.2.2.2.2.2.1 (by decide), h.2.2.2.2.2.2.1 (by decide) (by decide),
    h'.2.2.2.2.2.2.2.1 (by decide),
    h'.2.2.2.2.2.2.2.2 (by decide) (by decide)⟩

/-! ### C3: del1 keeps the expiry it was given -/

/-- C3 counterexample: at time 5, with a step-1 confirmation expiring at 10,
`del1` advances to step 2 but keeps `expires_at = 10`; there is no re-armed
expiry strictly later than the one it replaced. -/
theorem c3_counterexample :
    (handle_del1 5 ⟨.List, [⟨["- a".data]⟩], .DeleteConfirm .Menu 0 1 10, []⟩).1.view
      = ListView.DeleteConfirm .Menu 0 2 10 ∧
    ¬ ∃ fresh, 10 < fresh ∧
      (handle_del1 5 ⟨.List, [⟨["- a".data]⟩], .DeleteConfirm .Menu 0 1 10, []⟩).1.view
        = ListView.DeleteConfirm .Menu 0 2 fresh := by
  refine ⟨by decide, ?_⟩
  rintro ⟨fresh, hlt, heq⟩
  have h10 : (handle_del1 5
      ⟨.List, [⟨["- a".data]⟩], .DeleteConfirm .Menu 0 1 10, []⟩).1.view
      = ListView.DeleteConfirm .Menu 0 2 10 := by decide
  rw [h10] at heq
  injection heq with _ _ _ hfr
  omega

/-- C3 (amended): in a `DeleteConfirm{selected, index, step = 1, expires_at}`
view, if `now` is not past `expires_at` then `del1` advances the view to
step 2 keeping the same (not a re-armed) `expires_at`, with no notice; if the
confirmation is already expired (`now > expires_at`) then `del1` aborts back
to the captured `selected` view with a notice. -/
theorem c3_amended (now : Nat) (session : ListSession) (selected : ListView)
    (index step expires_at : Nat)
    (hview : session.view = .DeleteConfirm selected index step expires_at) :
    (now ≤ expires_at →
      handle_del1 now session
        = ({ session with view := .DeleteConfirm selected index 2 expires_at }, none)) ∧
    (now > expires_at →
      handle_del1 now session
        = ({ session with view := selected }, some expiredNotice)) := by
  constructor
  · intro hle
    have hnot : ¬ now > expires_at := by omega
    simp [handle_del1, hview, hnot]
  · intro hgt
    simp [handle_del1, hview, hgt]

/-- C3 witness: the amended theorem at a concrete session, in both the
not-yet-expired and the expired case. -/
theorem c3_witness :
    handle_del1 5 ⟨.List, [⟨["- a".data]⟩], .DeleteConfirm .Menu 0 1 10, []⟩
      = (⟨.List, [⟨["- a".data]⟩], .DeleteConfirm .Menu 0 2 10, []⟩, none) ∧
    handle_del1 11 ⟨.List, [⟨["- a".data]⟩], .DeleteConfirm .Menu 0 1 10, []⟩
      = (⟨.List, [⟨["- a".data]⟩], .Menu, []⟩, some expiredNotice) := by
  have h5 := c3_amended 5 ⟨.List, [⟨["- a".data]⟩], .DeleteConfirm .Menu 0 1 10, []⟩
    .Menu 0 1 10 rfl
  have h11 := c3_amended 11 ⟨.List, [⟨["- a".data]⟩], .DeleteConfirm .Menu 0 1 10, []⟩
    .Menu 0 1 10 rfl
  exact ⟨h5.1 (by decide), h11.2 (by decide)⟩

/-! ### C7: expired delete confirmations fail closed -/

/-- C7: in a `DeleteConfirm` view whose `expires_at` lies in the past
(`now > expires_at`), both `del1` and `del2` report a user-visible notice,
return the view to the captured `selected` state, and leave the session's
entries snapshot, the read-later store, and the undo ledger untouched. -/
theorem c7_expired_fail_closed (now : Nat) (peeked : List Str)
    (session : ListSession) (read_later : Store) (selected : ListView)
    (index step expires_at : Nat)
    (hview : session.view = .DeleteConfirm selected index step expires_at)
    (hexp : now > expires_at) :
    handle_del1 now session = ({ session with view := selected }, some expiredNotice) ∧
    handle_del2 now peeked session read_later
      = ⟨{ session with view := selected }, read_later, [], some expiredNotice⟩ ∧
    (handle_del1 now session).1.entries = session.entries ∧
    (handle_del2 now peeked session read_later).session.entries = session.entries ∧
    (handle_del2 now peeked session read_later).read_later = read_later ∧
    (handle_del2 now peeked session read_later).undo_added = [] := by
  have h1 : handle_del1 now session = ({ session with view := selected }, some expiredNotice) := by
    simp [handle_del1, hview, hexp]
  have h2 : handle_del2 now peeked session read_later
      = ⟨{ session with view := selected }, read_later, [], some expiredNotice⟩ := by
    simp [handle_del2, hview, hexp]
  exact ⟨h1, h2, by rw [h1], by rw [h2], by rw [h2], by rw [h2]⟩

/-- C7 witness: the theorem at a concrete expired confirmation. -/
theorem c7_witness :
    handle_del1 11 ⟨.List, [⟨["- a".data]⟩], .DeleteConfirm .Menu 0 2 10, []⟩
      = (⟨.List, [⟨["- a".data]⟩], .Menu, []⟩, some expiredNotice) ∧
    handle_del2 11 [] ⟨.List, [⟨["- a".data]⟩], .DeleteConfirm .Menu 0 2 10, []⟩
        ⟨[], [⟨["- a".data]⟩]⟩
      = ⟨⟨.List, [⟨["- a".data]⟩], .Menu, []⟩, ⟨[], [⟨["- a".data]⟩]⟩, [],
          some expiredNotice⟩ := by
  have h := c7_expired_fail_closed 11 [] ⟨.List, [⟨["- a".data]⟩], .DeleteConfirm .Menu 0 2 10, []⟩
    ⟨[], [⟨["- a".data]⟩]⟩ .Menu 0 2 10 rfl (by decide)
  exact ⟨h.1, h.2.1⟩

/-! ### C8: apply-or-queue retry behavior -/

/-- C8: `apply_user_op` consults at most the first 3 attempts (its result is
unchanged by altering any later attempt); when some attempt among the first 3
succeeds, the result is that first successful attempt's outcome, surfaced as
`Applied`, and the queue is untouched; when all 3 attempts fail, the op is
appended to the queue and the result is `Queued`.  (The 200ms fixed delay
between failed attempts is wall-clock behavior the embedding does not
time.) -/
theorem c8_apply_or_queue (f g : Nat → Except Str ApplyOutcome)
    (queue : List QueuedOp) (op : QueuedOp) :
    ((∀ i < 3, f i = g i) → apply_user_op f queue op = apply_user_op g queue op) ∧
    (∀ i, i < 3 → ∀ outcome, f i = .ok outcome → (∀ j < i, ∃ e, f j = .error e) →
      apply_user_op f queue op = (.Applied outcome, queue)) ∧
    ((∀ i < 3, ∃ e, f i = .error e) →
      apply_user_op f queue op = (.Queued, queue ++ [op])) := by
  refine ⟨?_, ?_, ?_⟩
  · intro hagree
    have h0 := hagree 0 (by omega)
    have h1 := hagree 1 (by omega)
    have h2 := hagree 2 (by omega)
    simp [apply_user_op, with_retries, h0, h1, h2]
  · intro i hi outcome hok hfail
    interval_cases i
    · simp [apply_user_op, with_retries, hok]
    · obtain ⟨e0, he0⟩ := hfail 0 (by omega)
      simp [apply_user_op, with_retries, he0, hok]
    · obtain ⟨e0, he0⟩ := hfail 0 (by omega)
      obtain ⟨e1, he1⟩ := hfail 1 (by omega)
      simp [apply_user_op, with_retries, he0, he1, hok]
  · intro hfail
    obtain ⟨e0, he0⟩ := hfail 0 (by omega)
    obtain ⟨e1, he1⟩ := hfail 1 (by omega)
    obtain ⟨e2, he2⟩ := hfail 2 (by omega)
    simp [apply_user_op, with_retries, he0, he1, he2]

/-- C8 witness: the theorem at a concrete attempt sequence that fails once
and then succeeds, and at one that always fails. -/
theorem c8_witness :
    apply_user_op
        (fun n => if n = 0 then .error "disk".data else .ok ApplyOutcome.Applied) []
        ⟨.Add, "- x".data, none, none⟩
      = (.Applied ApplyOutcome.Applied, []) ∧
    apply_user_op (fun _ => .error "disk".data) [] ⟨.Add, "- x".data, none, none⟩
      = (.Queued, [⟨.Add, "- x".data, none, none⟩]) := by
  constructor
  · exact (c8_apply_or_queue
      (fun n => if n = 0 then .error "disk".data else .ok ApplyOutcome.Applied)
      (fun n => if n = 0 then .error "disk".data else .ok ApplyOutcome.Applied)
      [] ⟨.Add, "- x".data, none, none⟩).2.1 1 (by omega) ApplyOutcome.Applied rfl
      (by intro j hj; interval_cases j; exact ⟨"disk".data, rfl⟩)
  · exact (c8_apply_or_queue (fun _ => .error "disk".data) (fun _ => .error "disk".data)
      [] ⟨.Add, "- x".data, none, none⟩).2.2
      (by intro i hi; exact ⟨"disk".data, rfl⟩)

/-! ### C6: peek paging -/

theorem enum_filter_map_eq (l : List α) (q : α → Bool) :
    (l.enum.filter (fun p => q p.2)).map Prod.fst
      = (List.range l.length).filter (fun i => ((l[i]?).map q).getD false) := by
  induction l using List.reverseRecOn with
  | nil => simp
  | append_singleton t a ih =>
    rw [List.enum_append, List.enumFrom_singleton, List.length_append,
      List.length_singleton, List.range_succ, List.filter_append, List.filter_append,
      List.map_append]
    have hleft : List.filter (fun i => (((t ++ [a])[i]?).map q).getD false)
        (List.range t.length)
        = List.filter (fun i => ((t[i]?).map q).getD false) (List.range t.length) := by
      apply List.filter_congr
      intro i hi
      rw [List.mem_range] at hi
      rw [List.getElem?_append_left hi]
    rw [hleft, ih]
    congr 1
    by_cases hq : q a
    · rw [List.filter_cons_of_pos (by simpa using hq),
        List.filter_cons_of_pos (by simp [List.getElem?_concat_length, hq])]
      simp
    · rw [List.filter_cons_of_neg (by simpa using hq),
        List.filter_cons_of_neg (by simp [List.getElem?_concat_length, hq])]
      simp

theorem slice_eq_drop_take (l : List Nat) (page : Nat) :
    (if l.isEmpty then []
     else if l.length ≤ page * PAGE_SIZE then []
     else ((l.drop (page * PAGE_SIZE)).take
        (min (page * PAGE_SIZE + PAGE_SIZE) l.length - page * PAGE_SIZE)))
      = (l.drop (page * PAGE_SIZE)).take PAGE_SIZE := by
  by_cases hnil : l.isEmpty
  · rw [if_pos hnil]
    rw [List.isEmpty_iff] at hnil
    subst hnil
    simp
  · rw [if_neg hnil]
    by_cases hoor : l.length ≤ page * PAGE_SIZE
    · rw [if_pos hoor]
      rw [List.drop_eq_nil_of_le hoor]
      simp
    · rw [if_neg hoor]
      rw [List.take_eq_take]
      rw [List.length_drop]
      omega

/-- C6: for every session, peeked set, mode and page, the peek-page
computation equals the slice `[page*3, page*3+3)` of the candidate list the
claim describes (entries absent from the peeked set for List-kind, all
entries for Search-kind, forward for Top / reversed for Bottom); it is a
total function, so an out-of-range page yields the empty page and never an
error. -/
theorem c6_peek_paging (session : ListSession) (peeked : List Str)
    (mode : ListMode) (page : Nat) :
    peek_indices_for_session session peeked mode page
      = ((claimed_candidates session peeked mode).drop (page * PAGE_SIZE)).take
          PAGE_SIZE := by
  cases hk : session.kind with
  | List =>
    have hred : peek_indices_for_session session peeked mode page
        = peek_indices session.entries peeked mode page := by
      simp [peek_indices_for_session, hk]
    have hc : claimed_candidates session peeked mode
        = ordered_unpeeked_indices session.entries peeked mode := by
      unfold claimed_candidates ordered_unpeeked_indices
      rw [hk]
      rw [enum_filter_map_eq session.entries
        (fun e => !peeked.contains e.block_string)]
    rw [hred, hc]
    unfold peek_indices
    exact slice_eq_drop_take _ _
  | Search q =>
    have hred : peek_indices_for_session session peeked mode page
        = peek_indices_all session.entries mode page := by
      simp [peek_indices_for_session, hk]
    have hc : claimed_candidates session peeked mode
        = ordered_indices session.entries mode := by
      unfold claimed_candidates ordered_indices
      rw [hk]
    rw [hred, hc]
    unfold peek_indices_all
    exact slice_eq_drop_take _ _

/-! ### C9: random draw -/

/-- C9 counterexample: a List session whose snapshot is empty has no eligible
index, yet `random` leaves the session exactly as it is and reports nothing —
the claimed "everything peeked" notice is not produced. -/
theorem c9_counterexample :
    remaining_random_indices ⟨.List, [], .Menu, []⟩ [] = [] ∧
    handle_random ⟨.List, [], .Menu, []⟩ [] [] = (⟨.List, [], .Menu, []⟩, [], none) ∧
    (handle_random ⟨.List, [], .Menu, []⟩ [] []).2.2
      ≠ some "Everything's been peeked already.".data := by decide

/-- C9 (amended): for a List-kind session, `random` draws only from indices
that are neither in the session's `seen_random` set nor have their block
string in the global peeked set.  If the snapshot is empty the action is a
silent no-op.  Otherwise, if no eligible index remains, the session moves to
`Menu`, the "everything peeked" notice is reported, and neither the entries
snapshot nor the peeked set is mutated.  Otherwise the head of the shuffled
eligible indices is chosen: it is added to `seen_random`, its block string is
added to the peeked set, and the view becomes `Selected` with `return_to`
capturing the view being left. -/
theorem c9_amended (session : ListSession) (peeked : List Str) (shuffled : List Nat)
    (hkind : session.kind = .List) :
    (session.entries = [] →
      handle_random session peeked shuffled = (session, peeked, none)) ∧
    (session.entries ≠ [] → remaining_random_indices session peeked = [] →
      handle_random session peeked shuffled
        = ({ session with view := .Menu }, peeked,
            some "Everything's been peeked already.".data)) ∧
    (∀ index, shuffled.head? = some index →
      index ∈ remaining_random_indices session peeked →
      index ∉ session.seen_random ∧
      ∃ entry, session.entries[index]? = some entry ∧
        entry.block_string ∉ peeked ∧
        handle_random session peeked shuffled
          = ({ session with
                seen_random := index :: session.seen_random,
                view := .Selected session.view index },
              entry.block_string :: peeked, none)) := by
  refine ⟨?_, ?_, ?_⟩
  · intro hemp
    simp [handle_random, hkind, hemp]
  · intro hne hrem
    simp [handle_random, hkind, List.isEmpty_iff, hne, hrem]
  · intro index hhead hmem
    have hmemu : index ∈ List.filter
        (fun i => ((session.entries[i]?).map
            (fun entry => !peeked.contains entry.block_string)).getD false)
        (List.filter (fun i => !session.seen_random.contains i)
          (List.range session.entries.length)) := hmem
    have hmem1 : index ∈ (List.range session.entries.length).filter
        (fun i => !session.seen_random.contains i) :=
      List.mem_of_mem_filter hmemu
    have hseen : index ∉ session.seen_random := by
      have := List.of_mem_filter hmem1
      simpa using this
    have hblock' := List.of_mem_filter hmemu
    have hblock : ((session.entries[index]?).map
        (fun entry => !peeked.contains entry.block_string)).getD false = true := hblock'

    cases hget : session.entries[index]? with
    | none => rw [hget] at hblock; simp at hblock
    | some entry =>
      rw [hget] at hblock
      simp at hblock
      have hpk : entry.block_string ∉ peeked := by simpa using hblock
      refine ⟨hseen, entry, rfl, hpk, ?_⟩
      have hne : session.entries ≠ [] := by
        intro hemp
        rw [hemp] at hget
        simp at hget
      have hrne : remaining_random_indices session peeked ≠ [] :=
        List.ne_nil_of_mem hmem
      simp [handle_random, hkind, List.isEmpty_iff, hne, hrne, hhead, hget]

/-- C9 witness: the amended theorem at a concrete one-entry session, in the
no-candidates case (entry already peeked) and in the successful-draw case. -/
theorem c9_witness :
    handle_random ⟨.List, [⟨["- a".data]⟩], .Menu, []⟩ ["- a".data] []
      = (⟨.List, [⟨["- a".data]⟩], .Menu, []⟩, ["- a".data],
          some "Everything's been peeked already.".data) ∧
    handle_random ⟨.List, [⟨["- a".data]⟩], .Menu, []⟩ [] [0]
      = (⟨.List, [⟨["- a".data]⟩], .Selected .Menu 0, [0]⟩, ["- a".data], none) := by
  have h1 := (c9_amended ⟨.List, [⟨["- a".data]⟩], .Menu, []⟩ ["- a".data] [] rfl).2.1
    (by decide) (by decide)
  have h2 := (c9_amended ⟨.List, [⟨["- a".data]⟩], .Menu, []⟩ [] [0] rfl).2.2
    0 rfl (by decide)
  obtain ⟨-, entry, hget, -, heq⟩ := h2
  obtain rfl : entry = ⟨["- a".data]⟩ := by
    simp only [List.getElem?_cons_zero] at hget
    injection hget with h
    exact h.symm
  exact ⟨h1, heq⟩

/-! ### C4: undo of a Delete record -/

theorem normalize_line_endings_of_no_cr :
    ∀ {l : Str}, '\r' ∉ l → normalize_line_endings l = l := by
  intro l
  induction l with
  | nil => intro _; rfl
  | cons c rest ih =>
    intro h
    have hc : c ≠ '\r' := fun hh => h (hh ▸ List.mem_cons_self c rest)
    have hr : '\r' ∉ rest := fun hh => h (List.mem_cons_of_mem c hh)
    rw [normalize_line_endings.eq_def]
    split
    · rename_i heq; simp at heq
    · rename_i heq; simp_all
    · rename_i heq hne; simp_all
    · rename_i c2 rest2 heq
      injection heq with h1 h2
      subst h1
      subst h2
      rw [ih hr]

theorem block_string_from_block {b : Str} (h : '\r' ∉ b) :
    (EntryBlock.from_block b).block_string = b := by
  unfold EntryBlock.from_block EntryBlock.block_string
  simp only
  rw [normalize_line_endings_of_no_cr h]
  exact List.intercalate_splitOn b '\n'

theorem position_unique_find :
    ∀ (l : List UndoRecord) (r : UndoRecord), (l.map UndoRecord.id).Nodup → r ∈ l →
      ∃ pos, position (fun x => x.id == r.id) l = some pos ∧ l[pos]? = some r ∧
        ∀ x ∈ l.eraseIdx pos, x.id ≠ r.id := by
  intro l
  induction l with
  | nil => intro r _ hmem; exact absurd hmem (List.not_mem_nil r)
  | cons a t ih =>
    intro r hnd hmem
    rw [List.map_cons, List.nodup_cons] at hnd
    by_cases heq : a.id = r.id
    · refine ⟨0, ?_, ?_, ?_⟩
      · simp [position, heq]
      · have har : a = r := by
          rcases List.mem_cons.mp hmem with h | h
          · exact h.symm
          · exact absurd (heq ▸ List.mem_map_of_mem UndoRecord.id h) hnd.1
        simp [har]
      · intro x hx
        rw [List.eraseIdx_cons_zero] at hx
        intro hxid
        exact hnd.1 (heq ▸ hxid ▸ List.mem_map_of_mem UndoRecord.id hx)
    · have hmem' : r ∈ t := by
        rcases List.mem_cons.mp hmem with h | h
        · exact absurd (h ▸ rfl) heq
        · exact h
      obtain ⟨pos, hpos, hget, herase⟩ := ih r hnd.2 hmem'
      refine ⟨pos + 1, ?_, ?_, ?_⟩
      · simp only [position]
        rw [if_neg (by simpa using heq), hpos]
        rfl
      · simpa using hget
      · intro x hx
        rw [List.eraseIdx_cons_succ] at hx
        rcases List.mem_cons.mp hx with h | h
        · exact h ▸ heq
        · exact herase x h

/-- C4: for an undo ledger with pairwise-distinct record ids that contains an
unexpired `Delete` record for entry `e` (whose text carries no carriage
returns, as every stored block string does) with `e` absent from the
read-later store: the first `undo` with that record's id reports "Undone."
and re-adds `e` at the head of the read-later store — the reversal op is
`Add`, and the head entry's block string is exactly `e`; a second `undo`
with the same id reports "Undo not found." and changes neither store.
Moreover the reversal map sends a `Delete` record to an `Add` op and a
`MoveToFinished` record to a `MoveToReadLater` op. -/
theorem c4_undo_delete (now : Nat) (env : UndoEnv) (r : UndoRecord)
    (hnd : (env.ledger.map UndoRecord.id).Nodup)
    (hmem : r ∈ env.ledger)
    (hkind : r.kind = .Delete)
    (hexp : now < r.expires_at)
    (hcr : '\r' ∉ r.entry)
    (habsent : r.entry ∉ env.read_later.entries.map EntryBlock.block_string) :
    (∀ rec : UndoRecord, (rec.kind = .Delete → undo_op rec = ⟨.Add, rec.entry, none, none⟩)
      ∧ (rec.kind = .MoveToFinished →
          undo_op rec = ⟨.MoveToReadLater, rec.entry, none, none⟩)) ∧
    (handle_undo now env r.id).2 = "Undone.".data ∧
    (handle_undo now env r.id).1.read_later.entries
      = EntryBlock.from_block r.entry :: env.read_later.entries ∧
    (EntryBlock.from_block r.entry).block_string = r.entry ∧
    (handle_undo now env r.id).1.finished = env.finished ∧
    (handle_undo now (handle_undo now env r.id).1 r.id).2 = "Undo not found.".data ∧
    (handle_undo now (handle_undo now env r.id).1 r.id).1.read_later
      = (handle_undo now env r.id).1.read_later ∧
    (handle_undo now (handle_undo now env r.id).1 r.id).1.finished
      = (handle_undo now env r.id).1.finished := by
  have hbs := block_string_from_block hcr
  -- the pruned ledger still contains r, with distinct ids
  have hprune_mem : r ∈ prune_undo now env.ledger := by
    rw [prune_undo, List.mem_filter]
    exact ⟨hmem, by simpa using hexp⟩
  have hprune_nd : ((prune_undo now env.ledger).map UndoRecord.id).Nodup :=
    hnd.sublist (List.Sublist.map UndoRecord.id (List.filter_sublist env.ledger))
  obtain ⟨pos, hpos, hget, herase⟩ :=
    position_unique_find (prune_undo now env.ledger) r hprune_nd hprune_mem
  -- the add in the Delete reversal succeeds (no duplicate)
  have hany : env.read_later.entries.any
      (fun x => x.block_string == (EntryBlock.from_block r.entry).block_string)
      = false := by
    rw [List.any_eq_false]
    intro a ha hab
    rw [hbs, beq_iff_eq] at hab
    exact habsent (hab ▸ List.mem_map_of_mem EntryBlock.block_string ha)
  have hnexp : ¬ r.expires_at < now := by omega
  have h1 : handle_undo now env r.id
      = (⟨(prune_undo now env.ledger).eraseIdx pos,
          { env.read_later with
            entries := EntryBlock.from_block r.entry :: env.read_later.entries },
          env.finished⟩, "Undone.".data) := by
    unfold handle_undo
    simp only [hpos, hget, hkind, if_neg hnexp]
    simp [add_entry_sync, hany]
  -- second call: the id is gone
  have hprune2 : prune_undo now ((prune_undo now env.ledger).eraseIdx pos)
      = (prune_undo now env.ledger).eraseIdx pos := by
    rw [prune_undo, List.filter_eq_self]
    intro x hx
    have hx' : x ∈ prune_undo now env.ledger :=
      (List.eraseIdx_sublist _ pos).mem hx
    rw [prune_undo, List.mem_filter] at hx'
    exact hx'.2
  have hnone : position (fun x => x.id == r.id)
      ((prune_undo now env.ledger).eraseIdx pos) = none := by
    apply position_eq_none
    intro a ha
    simpa using herase a ha
  have h2 : handle_undo now
      ⟨(prune_undo now env.ledger).eraseIdx pos,
        { env.read_later with
          entries := EntryBlock.from_block r.entry :: env.read_later.entries },
        env.finished⟩ r.id
      = (⟨(prune_undo now env.ledger).eraseIdx pos,
          { env.read_later with
            entries := EntryBlock.from_block r.entry :: env.read_later.entries },
          env.finished⟩, "Undo not found.".data) := by
    unfold handle_undo
    simp only [hprune2, hnone]
  refine ⟨?_, ?_, ?_, hbs, ?_, ?_, ?_, ?_⟩
  · intro rec
    constructor
    · intro hk; unfold undo_op; rw [hk]
    · intro hk; unfold undo_op; rw [hk]
  · rw [h1]
  · rw [h1]
  · rw [h1]
  · rw [h1, h2]
  · rw [h1, h2]
  · rw [h1, h2]

/-- C4 witness: the theorem at a concrete one-record ledger and a one-entry
read-later store. -/
theorem c4_witness :
    (handle_undo 100 ⟨[⟨"u1".data, .Delete, "- b".data, 200⟩],
        ⟨[], [⟨["- a".data]⟩]⟩, ⟨[], []⟩⟩ "u1".data).2 = "Undone.".data ∧
    (handle_undo 100 ⟨[⟨"u1".data, .Delete, "- b".data, 200⟩],
        ⟨[], [⟨["- a".data]⟩]⟩, ⟨[], []⟩⟩ "u1".data).1.read_later.entries
      = EntryBlock.from_block "- b".data :: [⟨["- a".data]⟩] ∧
    (EntryBlock.from_block "- b".data).block_string = "- b".data ∧
    (handle_undo 100
        (handle_undo 100 ⟨[⟨"u1".data, .Delete, "- b".data, 200⟩],
          ⟨[], [⟨["- a".data]⟩]⟩, ⟨[], []⟩⟩ "u1".data).1 "u1".data).2
      = "Undo not found.".data := by
  have h := c4_undo_delete 100 ⟨[⟨"u1".data, .Delete, "- b".data, 200⟩],
      ⟨[], [⟨["- a".data]⟩]⟩, ⟨[], []⟩⟩ ⟨"u1".data, .Delete, "- b".data, 200⟩
    (by decide) (by decide) rfl (by decide) (by decide) (by decide)
  exact ⟨h.2.1, h.2.2.1, h.2.2.2.1, h.2.2.2.2.2.1⟩

/-! ### C2: write/parse round trip -/

theorem foldl_parse_preamble :
    ∀ (ls : List Str) (P : List Str), (∀ l ∈ ls, l.head? ≠ some '-') →
      ls.foldl parse_step ⟨P, [], [], false⟩ = ⟨P ++ ls, [], [], false⟩ := by
  intro ls
  induction ls with
  | nil => intro P _; simp
  | cons l t ih =>
    intro P h
    rw [List.foldl_cons]
    have hstep : parse_step ⟨P, [], [], false⟩ l = ⟨P ++ [l], [], [], false⟩ := by
      simp [parse_step, h l (List.mem_cons_self l t)]
    rw [hstep, ih (P ++ [l]) (fun x hx => h x (List.mem_cons_of_mem l hx))]
    simp

theorem foldl_parse_continuation :
    ∀ (ls : List Str) (P : List Str) (E : List EntryBlock) (cur : List Str),
      (∀ l ∈ ls, l.head? ≠ some '-') →
      ls.foldl parse_step ⟨P, E, cur, true⟩ = ⟨P, E, cur ++ ls, true⟩ := by
  intro ls
  induction ls with
  | nil => intro P E cur _; simp
  | cons l t ih =>
    intro P E cur h
    rw [List.foldl_cons]
    have hstep : parse_step ⟨P, E, cur, true⟩ l = ⟨P, E, cur ++ [l], true⟩ := by
      simp [parse_step, h l (List.mem_cons_self l t)]
    rw [hstep, ih P E (cur ++ [l]) (fun x hx => h x (List.mem_cons_of_mem l hx))]
    simp

theorem isEmpty_false_of_ne_nil {l : List α} (h : l ≠ []) : l.isEmpty = false := by
  cases l with
  | nil => exact absurd rfl h
  | cons a t => rfl

theorem foldl_parse_entry (e : EntryBlock) (he : wfEntry e)
    (P : List Str) (E : List EntryBlock) (cur : List Str) (hcur : cur ≠ []) :
    e.lines.foldl parse_step ⟨P, E, cur, true⟩
      = ⟨P, E ++ [EntryBlock.mk cur], e.lines, true⟩ := by
  obtain ⟨hne, hdash, htail, -⟩ := he
  obtain ⟨first, rest, hlines⟩ := List.exists_cons_of_ne_nil hne
  rw [hlines] at hdash htail ⊢
  simp only [List.headI] at hdash
  rw [List.foldl_cons]
  have hstep : parse_step ⟨P, E, cur, true⟩ first
      = ⟨P, E ++ [EntryBlock.mk cur], [first], true⟩ := by
    simp [parse_step, hdash, isEmpty_false_of_ne_nil hcur]
  rw [hstep, foldl_parse_continuation rest P (E ++ [EntryBlock.mk cur]) [first] htail]
  simp

theorem foldl_parse_entries :
    ∀ (es : List EntryBlock), (∀ e ∈ es, wfEntry e) →
      ∀ (P : List Str) (E : List EntryBlock) (cur : List Str), cur ≠ [] →
      parse_finalize ((es.flatMap EntryBlock.lines).foldl parse_step ⟨P, E, cur, true⟩)
        = (P, E ++ EntryBlock.mk cur :: es) := by
  intro es
  induction es with
  | nil =>
    intro _ P E cur hcur
    simp only [List.flatMap_nil, List.foldl_nil]
    rw [parse_finalize]
    simp [isEmpty_false_of_ne_nil hcur]
  | cons e t ih =>
    intro hwf P E cur hcur
    rw [List.flatMap_cons, List.foldl_append]
    rw [foldl_parse_entry e (hwf e (List.mem_cons_self e t)) P E cur hcur]
    rw [ih (fun x hx => hwf x (List.mem_cons_of_mem e hx)) P (E ++ [EntryBlock.mk cur])
      e.lines (hwf e (List.mem_cons_self e t)).1]
    simp

/-- Line-level round trip: parsing the concatenated preamble and entry lines
recovers the preamble and the entries, under the file-format well-formedness
conditions. -/
theorem parse_lines_roundtrip (pre : List Str) (entries : List EntryBlock)
    (hp : ∀ l ∈ pre, l.head? ≠ some '-')
    (he : ∀ e ∈ entries, wfEntry e) :
    parse_lines (pre ++ entries.flatMap EntryBlock.lines) = (pre, entries) := by
  cases entries with
  | nil =>
    rw [parse_lines, List.flatMap_nil, List.append_nil, foldl_parse_preamble pre [] hp]
    rw [parse_finalize]
    simp
  | cons e t =>
    have hwfe := he e (List.mem_cons_self e t)
    obtain ⟨hne, hdash, htail, -⟩ := hwfe
    obtain ⟨first, rest, hlines⟩ := List.exists_cons_of_ne_nil hne
    rw [parse_lines, List.foldl_append, foldl_parse_preamble pre [] hp]
    simp only [List.nil_append]
    rw [List.flatMap_cons, List.foldl_append]
    rw [hlines] at hdash htail ⊢
    simp only [List.headI] at hdash
    rw [List.foldl_cons]
    have hstep : parse_step ⟨pre, [], [], false⟩ first
        = ⟨pre, [], [first], true⟩ := by
      simp [parse_step, hdash]
    rw [hstep, foldl_parse_continuation rest pre [] [first] htail]
    have hfin := foldl_parse_entries t (fun x hx => he x (List.mem_cons_of_mem e hx))
      pre [] (first :: rest) (by simp)
    simp only [List.singleton_append] at hfin ⊢
    rw [hfin]
    have hcons : EntryBlock.mk (first :: rest) = e := by
      rw [← hlines]
    rw [hcons]
    simp

theorem not_mem_intercalate_single {d c : Char} :
    ∀ {ls : List Str}, (∀ l ∈ ls, d ∉ l) → d ≠ c →
      d ∉ List.intercalate [c] ls := by
  intro ls
  induction ls with
  | nil => intro _ _; simp [List.intercalate]
  | cons x t ih =>
    intro h hd
    cases t with
    | nil =>
      simpa [List.intercalate] using h x (List.mem_cons_self x [])
    | cons y t2 =>
      have hxy : List.intercalate [c] (x :: y :: t2)
          = x ++ [c] ++ List.intercalate [c] (y :: t2) := by
        simp [List.intercalate, List.intersperse_cons₂]
      rw [hxy]
      intro hmem
      rcases List.mem_append.mp hmem with hmem1 | hmem2
      · rcases List.mem_append.mp hmem1 with hx | hc
        · exact h x (List.mem_cons_self x (y :: t2)) hx
        · exact hd (List.mem_singleton.mp hc)
      · exact ih (fun l hl => h l (List.mem_cons_of_mem x hl)) hd hmem2

theorem strip_cr_map_id {ls : List Str} (h : ∀ l ∈ ls, '\r' ∉ l) :
    ls.map (fun line => if line.getLast? = some '\r' then line.dropLast else line)
      = ls := by
  have hmap : ls.map (fun line : Str =>
      if line.getLast? = some '\r' then line.dropLast else line) = ls.map id := by
    apply List.map_congr_left
    intro l hl
    have hnot : l.getLast? ≠ some '\r' := fun hlast =>
      h l hl (List.mem_of_getLast?_eq_some hlast)
    simp [hnot]
  rw [hmap, List.map_id]

/-- C2 counterexample: an entry whose continuation line itself starts with
the `'-'` marker is split into two entries by the parser, so the round trip
does not reproduce the entry list. -/
theorem c2_counterexample :
    read_entries (write_entries [] [⟨["- a".data, "- b".data]⟩])
        = ([], [⟨["- a".data]⟩, ⟨["- b".data]⟩]) ∧
      read_entries (write_entries [] [⟨["- a".data, "- b".data]⟩])
        ≠ ([], [⟨["- a".data, "- b".data]⟩]) := by decide

/-- C2 (amended): writing a preamble and entry list with `write_entries` and
parsing the written contents back with `read_entries`/`parse_entries`
reproduces exactly the preamble (blank lines included) and exactly the
entries, provided the data is expressible in the file format: no preamble
line starts with `'-'` or embeds a line ending; every entry is nonempty,
its first line starts with `'-'`, its continuation lines do not, and no
entry line embeds a line ending; and the file is not the single blank
preamble line with no entries (which writes as the empty file). -/
theorem c2_amended (pre : List Str) (entries : List EntryBlock)
    (hp : ∀ l ∈ pre, wfPreLine l)
    (he : ∀ e ∈ entries, wfEntry e)
    (hcorner : ¬(pre = [[]] ∧ entries = [])) :
    read_entries (write_entries pre entries) = (pre, entries) := by
  set allLines := pre ++ entries.flatMap EntryBlock.lines with hall_def
  have hno_nl : ∀ l ∈ allLines, '\n' ∉ l := by
    intro l hl
    rcases List.mem_append.mp hl with hl | hl
    · exact (hp l hl).2.1
    · obtain ⟨e, hee, hle⟩ := List.mem_flatMap.mp hl
      exact ((he e hee).2.2.2 l hle).1
  have hno_cr : ∀ l ∈ allLines, '\r' ∉ l := by
    intro l hl
    rcases List.mem_append.mp hl with hl | hl
    · exact (hp l hl).2.2
    · obtain ⟨e, hee, hle⟩ := List.mem_flatMap.mp hl
      exact ((he e hee).2.2.2 l hle).2
  have hp' : ∀ l ∈ pre, l.head? ≠ some '-' := fun l hl => (hp l hl).1
  by_cases hall : allLines = []
  · -- the empty file: both preamble and entries are empty
    have hpre : pre = [] := (List.append_eq_nil.mp hall).1
    have hflat : entries.flatMap EntryBlock.lines = [] := (List.append_eq_nil.mp hall).2
    have hent : entries = [] := by
      cases hents : entries with
      | nil => rfl
      | cons e t =>
        rw [hents] at hflat
        rw [List.flatMap_cons, List.append_eq_nil] at hflat
        exact absurd hflat.1 (he e (hents ▸ List.mem_cons_self e t)).1
    subst hpre
    subst hent
    decide
  · have hsplit : List.splitOn '\n' (List.intercalate ['\n'] allLines) = allLines :=
      List.splitOn_intercalate allLines '\n' hno_nl hall
    by_cases hct : List.intercalate ['\n'] allLines = []
    · -- only possible for the excluded single-blank-line corner case
      exfalso
      rw [hct, List.splitOn_nil] at hsplit
      have hent : entries = [] := by
        cases hents : entries with
        | nil => rfl
        | cons e t =>
          exfalso
          obtain ⟨hne, hdash, -, -⟩ := he e (hents ▸ List.mem_cons_self e t)
          obtain ⟨first, rest, hlines⟩ := List.exists_cons_of_ne_nil hne
          have hfirst : first ∈ allLines := by
            rw [hall_def, hents]
            refine List.mem_append_right pre ?_
            rw [List.flatMap_cons, hlines]
            exact List.mem_append_left _ (List.mem_cons_self first rest)
          rw [← hsplit] at hfirst
          have : first = [] := List.mem_singleton.mp hfirst
          rw [hlines] at hdash
          simp [List.headI, this] at hdash
      rw [hent] at hall_def
      simp only [List.flatMap_nil, List.append_nil] at hall_def
      exact hcorner ⟨by rw [← hall_def]; exact hsplit.symm, hent⟩
    · -- the main case: nonempty written contents ending in a newline
      have hwrite : write_entries pre entries
          = List.intercalate ['\n'] allLines ++ ['\n'] := by
        rw [write_entries]
        simp only [← hall_def]
        rw [if_neg hct]
      have hcr_content : '\r' ∉ List.intercalate ['\n'] allLines ++ ['\n'] := by
        intro hmem
        rcases List.mem_append.mp hmem with hmem | hmem
        · exact not_mem_intercalate_single hno_cr (by decide) hmem
        · simp at hmem
      have hlines_eq : rust_lines (List.intercalate ['\n'] allLines ++ ['\n'])
          = allLines := by
        rw [rust_lines]
        rw [if_neg (by simp)]
        rw [List.getLast?_concat]
        rw [if_pos rfl]
        rw [List.dropLast_concat]
        simp only [hsplit]
        exact strip_cr_map_id hno_cr
      rw [read_entries, hwrite,
        normalize_line_endings_of_no_cr hcr_content, parse_entries, hlines_eq]
      exact parse_lines_roundtrip pre entries hp' he

/-- C2 witness: the amended theorem at a concrete preamble containing a blank
line and two entries, one with a continuation line. -/
theorem c2_witness :
    read_entries (write_entries ["pre".data, [], "amble".data]
        [⟨["- a".data, "b".data]⟩, ⟨["- c".data]⟩])
      = (["pre".data, [], "amble".data], [⟨["- a".data, "b".data]⟩, ⟨["- c".data]⟩]) :=
  c2_amended ["pre".data, [], "amble".data] [⟨["- a".data, "b".data]⟩, ⟨["- c".data]⟩]
    (by decide) (by decide) (by decide)

/-! ### C10: search query matching -/

theorem toLower_isWhitespace (c : Char) : (Char.toLower c).isWhitespace = c.isWhitespace := by
  have hdef : Char.toLower c
      = if c.toNat ≥ 65 ∧ c.toNat ≤ 90 then Char.ofNat (c.toNat + 32) else c := rfl
  by_cases h : c.toNat ≥ 65 ∧ c.toNat ≤ 90
  · rw [hdef, if_pos h]
    have hlow : ∀ n : Nat, n < 123 → 97 ≤ n → (Char.ofNat n).isWhitespace = false := by
      decide
    have h1 : (Char.ofNat (c.toNat + 32)).isWhitespace = false :=
      hlow (c.toNat + 32) (by omega) (by omega)
    have h2 : c.isWhitespace = false := by
      rw [Char.isWhitespace]
      have hs : c ≠ ' ' := fun hh => by rw [hh] at h; exact absurd h (by decide)
      have ht : c ≠ '\t' := fun hh => by rw [hh] at h; exact absurd h (by decide)
      have hr : c ≠ '\r' := fun hh => by rw [hh] at h; exact absurd h (by decide)
      have hn : c ≠ '\n' := fun hh => by rw [hh] at h; exact absurd h (by decide)
      simp [hs, ht, hr, hn]
    rw [h1, h2]
  · rw [hdef, if_neg h]

theorem toLower_dropWhile_ws (s : Str) :
    rust_to_lowercase (s.dropWhile Char.isWhitespace)
      = (rust_to_lowercase s).dropWhile Char.isWhitespace := by
  rw [rust_to_lowercase, rust_to_lowercase, List.dropWhile_map]
  have hfun : (Char.isWhitespace ∘ Char.toLower) = Char.isWhitespace := by
    funext c
    exact toLower_isWhitespace c
  rw [hfun]

theorem toLower_trim_comm (s : Str) :
    rust_to_lowercase (rust_trim s) = rust_trim (rust_to_lowercase s) := by
  rw [rust_trim, rust_trim]
  rw [rust_to_lowercase, List.map_reverse, ← rust_to_lowercase]
  rw [toLower_dropWhile_ws]
  rw [rust_to_lowercase, List.map_reverse, ← rust_to_lowercase]
  rw [toLower_dropWhile_ws]

theorem split_whitespace_aux_all_ws :
    ∀ {l : Str}, (∀ c ∈ l, c.isWhitespace = true) → split_whitespace_aux [] l = [] := by
  intro l
  induction l with
  | nil => intro _; rfl
  | cons c t ih =>
    intro h
    rw [split_whitespace_aux]
    rw [if_pos (h c (List.mem_cons_self c t))]
    simp only [List.isEmpty_nil, if_pos rfl]
    exact ih fun d hd => h d (List.mem_cons_of_mem c hd)

theorem split_whitespace_aux_append_ws :
    ∀ (s t : Str) (acc : List Char), (∀ c ∈ t, c.isWhitespace = true) →
      split_whitespace_aux acc (s ++ t) = split_whitespace_aux acc s := by
  intro s
  induction s with
  | nil =>
    intro t acc h
    rw [List.nil_append]
    cases t with
    | nil => rfl
    | cons c u =>
      rw [split_whitespace_aux, split_whitespace_aux]
      rw [if_pos (h c (List.mem_cons_self c u))]
      have hu : split_whitespace_aux [] u = [] :=
        split_whitespace_aux_all_ws fun d hd => h d (List.mem_cons_of_mem c hd)
      by_cases hacc : acc.isEmpty
      · rw [if_pos hacc, if_pos hacc, hu]
      · rw [if_neg hacc, if_neg hacc, hu]
  | cons c u ih =>
    intro t acc h
    rw [List.cons_append, split_whitespace_aux, split_whitespace_aux]
    by_cases hc : c.isWhitespace
    · rw [if_pos hc, if_pos hc]
      by_cases hacc : acc.isEmpty
      · rw [if_pos hacc, if_pos hacc, ih t [] h]
      · rw [if_neg hacc, if_neg hacc, ih t [] h]
    · rw [if_neg hc, if_neg hc, ih t (c :: acc) h]

theorem split_whitespace_dropWhile_ws :
    ∀ (s : Str), split_whitespace (s.dropWhile Char.isWhitespace) = split_whitespace s := by
  intro s
  induction s with
  | nil => rfl
  | cons c t ih =>
    rw [List.dropWhile_cons]
    by_cases hc : c.isWhitespace
    · rw [if_pos hc]
      rw [ih]
      show split_whitespace t = split_whitespace_aux [] (c :: t)
      rw [split_whitespace_aux, if_pos hc]
      simp only [List.isEmpty_nil, if_pos rfl]
      rfl
    · rw [if_neg hc]

theorem split_whitespace_trim (s : Str) :
    split_whitespace (rust_trim s) = split_whitespace s := by
  rw [rust_trim]
  set s1 := s.dropWhile Char.isWhitespace with hs1
  have hdecomp : s1 = (s1.reverse.dropWhile Char.isWhitespace).reverse
      ++ (s1.reverse.takeWhile Char.isWhitespace).reverse := by
    have := List.takeWhile_append_dropWhile Char.isWhitespace s1.reverse
    calc s1 = s1.reverse.reverse := by rw [List.reverse_reverse]
    _ = (List.takeWhile Char.isWhitespace s1.reverse
          ++ List.dropWhile Char.isWhitespace s1.reverse).reverse := by rw [this]
    _ = _ := by rw [List.reverse_append]
  have hws : ∀ c ∈ (s1.reverse.takeWhile Char.isWhitespace).reverse,
      c.isWhitespace = true := by
    intro c hc
    rw [List.mem_reverse] at hc
    exact List.mem_takeWhile_imp hc
  calc split_whitespace (s1.reverse.dropWhile Char.isWhitespace).reverse
      = split_whitespace_aux [] ((s1.reverse.dropWhile Char.isWhitespace).reverse
          ++ (s1.reverse.takeWhile Char.isWhitespace).reverse) :=
        (split_whitespace_aux_append_ws _ _ [] hws).symm
    _ = split_whitespace_aux [] s1 := by rw [← hdecomp]
    _ = split_whitespace s := split_whitespace_dropWhile_ws s

theorem trim_eq_nil_of_all_ws {q : Str} (h : ∀ c ∈ q, c.isWhitespace = true) :
    rust_trim q = [] := by
  rw [rust_trim]
  rw [List.dropWhile_eq_nil_iff.mpr h]
  rfl

theorem trim_ne_nil_of_exists_not_ws {q : Str}
    (h : ∃ c ∈ q, c.isWhitespace = false) : rust_trim q ≠ [] := by
  obtain ⟨c, hc, hcw⟩ := h
  rw [rust_trim]
  have hd1 : q.dropWhile Char.isWhitespace ≠ [] := by
    rw [Ne, List.dropWhile_eq_nil_iff]
    intro hall
    rw [hall c hc] at hcw
    exact absurd hcw (by simp)
  have hhead := List.head_dropWhile_not Char.isWhitespace q hd1
  have hmem : (q.dropWhile Char.isWhitespace).head hd1
      ∈ (q.dropWhile Char.isWhitespace).reverse := by
    rw [List.mem_reverse]
    exact List.head_mem hd1
  have hd2 : (q.dropWhile Char.isWhitespace).reverse.dropWhile Char.isWhitespace
      ≠ [] := by
    rw [Ne, List.dropWhile_eq_nil_iff]
    intro hall
    rw [hall _ hmem] at hhead
    exact absurd hhead (by simp)
  simpa using hd2

/-- C10: a query that is empty or all-whitespace matches no entry; a query
containing a non-whitespace character matches exactly when every
whitespace-separated term of the lowercased query occurs as a substring of
the entry's lowercased joined display lines. -/
theorem c10_matches_query (entry : EntryBlock) (query : Str) :
    ((∀ c ∈ query, c.isWhitespace = true) → matches_query entry query = false) ∧
    ((∃ c ∈ query, c.isWhitespace = false) →
      (matches_query entry query = true ↔
        ∀ term ∈ split_whitespace (rust_to_lowercase query),
          rust_contains
            (rust_to_lowercase (List.intercalate ['\n'] entry.display_lines)) term
            = true)) := by
  constructor
  · intro hws
    simp only [matches_query]
    rw [trim_eq_nil_of_all_ws hws]
    rfl
  · intro hex
    have hne : rust_trim query ≠ [] := trim_ne_nil_of_exists_not_ws hex
    have hneedle : rust_to_lowercase (rust_trim query) ≠ [] := by
      rw [rust_to_lowercase]
      simpa using hne
    simp only [matches_query]
    rw [if_neg (by simpa [List.isEmpty_iff] using hneedle)]
    have hsw : split_whitespace (rust_to_lowercase (rust_trim query))
        = split_whitespace (rust_to_lowercase query) := by
      rw [toLower_trim_comm, split_whitespace_trim]
    rw [hsw, List.all_eq_true]

/-- C10 witness: the theorem at a concrete entry, for an all-whitespace query
and for a two-term query matched case-insensitively across the display
lines. -/
theorem c10_witness :
    matches_query ⟨["- Hello World".data, "second".data]⟩ "  ".data = false ∧
    matches_query ⟨["- Hello World".data, "second".data]⟩ " wor HEL ".data = true := by
  have hblank := c10_matches_query ⟨["- Hello World".data, "second".data]⟩ "  ".data
  have hterms := c10_matches_query ⟨["- Hello World".data, "second".data]⟩
    " wor HEL ".data
  refine ⟨hblank.1 (by decide), ?_⟩
  exact (hterms.2 ⟨'w', by decide, by decide⟩).mpr (by decide)
